import Mathlib

/-!
# Verification of the RepoScoop release-grouping and fetch/retry core

Shallow embedding of the decision logic of the repository:

* `extractPackageInfo` and `groupReleasesByPackage` from
  `src/lib/utils/release-grouping.ts` (the current revision, the one
  taking a `repoName` argument);
* `fetchReleasesPage`, `fetchAllReleases`, `retryWithBackoff` from the
  GitHub API service module (`github-api.ts`).

Modelling conventions:

* JavaScript strings are modelled as Lean `String` / `List Char`; the
  regular expressions of the source are compiled by hand into
  deterministic matchers (greedy character-class runs are maximal runs,
  with the backtracking reasoning recorded at each matcher);
* `String.prototype.toLowerCase` is modelled on the ASCII range
  (`Char.toLower`), which is exact for every comparison the source makes
  against the ASCII literals "version" and "v";
* `Date.parse`/`new Date(..).getTime()` is modelled for the UTC ISO-8601
  timestamps the remote API emits (`YYYY-MM-DD` and
  `YYYY-MM-DDTHH:MM:SS[.mmm]Z`, years 1970..); any other string is mapped
  to `none`, standing for an invalid date (`NaN`). Statements about sort
  order carry the hypothesis that every sort key parses, because
  `Array.prototype.sort` is unspecified when the comparator returns `NaN`;
* `Array.prototype.sort` (stable since ES2019) is modelled by a stable
  insertion sort driven by the sign of the source comparator;
* `a.name.localeCompare(b.name)` is locale dependent, so the grouping
  function is parametrised by the comparator `lc`; no claim below depends
  on the relative order of distinct group names;
* asynchronous operations are modelled as outcome streams
  (`Nat → Except ε α`, the n-th invocation's outcome); sleeps have no
  observable effect in the embedding beyond the delay bookkeeping.
-/

namespace RepoScoop

/-! ## JavaScript character classes and small string helpers -/

/-- The character class `[a-zA-Z0-9-]` used throughout `PACKAGE_PATTERNS`. -/
def isAlnumDash (c : Char) : Bool :=
  c.isAlphanum || c == '-'

/-- The character class `[a-zA-Z0-9.-]` of the pre-release part. -/
def isPreChar (c : Char) : Bool :=
  c.isAlphanum || c == '.' || c == '-'

/-- JavaScript `\s` (WhiteSpace and LineTerminator productions). -/
def isJsWhitespace (c : Char) : Bool :=
  c == ' ' || c == '\t' || c == '\n' || c.val == 11 || c.val == 12 || c == '\r' ||
  c.val == 0xA0 || c.val == 0x1680 || (0x2000 ≤ c.val && c.val ≤ 0x200A) ||
  c.val == 0x2028 || c.val == 0x2029 || c.val == 0x202F || c.val == 0x205F ||
  c.val == 0x3000 || c.val == 0xFEFF

/-- JavaScript line terminators, which `.` does not match. -/
def isLineTerm (c : Char) : Bool :=
  c == '\n' || c == '\r' || c.val == 0x2028 || c.val == 0x2029

/-- `String.prototype.toLowerCase`, ASCII fragment. -/
def jsToLower (s : String) : String :=
  (s.data.map Char.toLower).asString

/-- `String.prototype.trim` over the JavaScript whitespace class. -/
def jsTrimList (l : List Char) : List Char :=
  ((l.dropWhile isJsWhitespace).reverse.dropWhile isJsWhitespace).reverse

def jsTrim (s : String) : String :=
  (jsTrimList s.data).asString

/-- JavaScript `a || b` for strings (the empty string is falsy). -/
def jsOr (a b : String) : String :=
  if a = "" then b else a

/-- Value of a list of decimal digits. -/
def digitsVal (l : List Char) : Nat :=
  l.foldl (fun a c => a * 10 + (c.toNat - 48)) 0

/-- Strip a literal prefix, returning the remainder on success. -/
def dropLit : List Char → List Char → Option (List Char)
  | [], l => some l
  | _ :: _, [] => none
  | p :: ps, c :: cs => if p == c then dropLit ps cs else none

/-- Substring search at every position. -/
def containsSubGo (pat : List Char) : List Char → Bool
  | [] => (dropLit pat []).isSome
  | c :: rest => (dropLit pat (c :: rest)).isSome || containsSubGo pat rest

/-- `String.prototype.includes`. -/
def containsSub (hay pat : String) : Bool :=
  containsSubGo pat.data hay.data

/-! ## PatternExtractor (`extractPackageInfo`) -/

/-- The `{packageName, version}` record produced by the extractor. -/
structure PackageInfo where
  packageName : String
  version : String
deriving DecidableEq, Repr

/-- Shared matcher for `\d+\.\d+\.\d+(?:-[a-zA-Z0-9.-]+)?`.

The three `\d+` runs are maximal runs (a shorter run would leave a digit
where `.` is required); the optional `-pre` part, when the following
character is `-` and at least one `[a-zA-Z0-9.-]` character follows it,
consumes the maximal such run (no follower in any enclosing pattern is in
that class, so no backtracking into the run can succeed). Returns the
matched version text and the unconsumed remainder. -/
def parseVer (l : List Char) : Option (List Char × List Char) :=
  let (d1, r1) := l.span Char.isDigit
  if d1.isEmpty then none else
  match r1 with
  | '.' :: r2 =>
    let (d2, r3) := r2.span Char.isDigit
    if d2.isEmpty then none else
    match r3 with
    | '.' :: r4 =>
      let (d3, r5) := r4.span Char.isDigit
      if d3.isEmpty then none else
      let base := d1 ++ '.' :: d2 ++ '.' :: d3
      match r5 with
      | '-' :: r6 =>
        let (pre, r7) := r6.span isPreChar
        if pre.isEmpty then some (base, r5) else some (base ++ '-' :: pre, r7)
      | _ => some (base, r5)
    | _ => none
  | _ => none

/-- Pattern 1: `/^@([a-zA-Z0-9-]+)\/([a-zA-Z0-9-]+)@(.*?)$/`.

Both `+` groups are maximal class runs (`/` and `@` are outside the
class, so greedy backtracking cannot shorten them), and `(.*?)$` matches
the remainder exactly when it contains no line terminator. -/
def matchScopedAt (l : List Char) : Option PackageInfo :=
  match l with
  | '@' :: r =>
    let (g1, r1) := r.span isAlnumDash
    if g1.isEmpty then none else
    match r1 with
    | '/' :: r2 =>
      let (g2, r3) := r2.span isAlnumDash
      if g2.isEmpty then none else
      match r3 with
      | '@' :: g3 =>
        if g3.any isLineTerm then none
        else some ⟨"@" ++ g1.asString ++ "/" ++ g2.asString, g3.asString⟩
      | _ => none
    | _ => none
  | _ => none

/-- Pattern 2: `/^([a-zA-Z0-9-]+)@(.*?)$/`. -/
def matchNameAt (l : List Char) : Option PackageInfo :=
  let (g1, r1) := l.span isAlnumDash
  if g1.isEmpty then none else
  match r1 with
  | '@' :: g2 =>
    if g2.any isLineTerm then none else some ⟨g1.asString, g2.asString⟩
  | _ => none

/-- Pattern 3: `/^v?(\d+\.\d+\.\d+(?:-[a-zA-Z0-9.-]+)?)(?:\s+\(([a-zA-Z0-9-]+)\))?$/`.

`v?` is deterministic (a digit is required next, and `v` is not a
digit). When the parenthesised group is absent the packageName is the
source literal `'default'` (`match[2] || 'default'`). -/
def matchVerParen (l : List Char) : Option PackageInfo :=
  let l1 := match l with
    | 'v' :: r => r
    | _ => l
  match parseVer l1 with
  | none => none
  | some (ver, rest) =>
    match rest with
    | [] => some ⟨"default", ver.asString⟩
    | _ =>
      let (ws, r1) := rest.span isJsWhitespace
      if ws.isEmpty then none else
      match r1 with
      | '(' :: r2 =>
        let (nm, r3) := r2.span isAlnumDash
        if nm.isEmpty then none else
        match r3 with
        | [')'] => some ⟨nm.asString, ver.asString⟩
        | _ => none
      | _ => none

/-- Pattern 4: `/^([a-zA-Z0-9-]+)\s+v?(\d+\.\d+\.\d+(?:-[a-zA-Z0-9.-]+)?)$/`. -/
def matchNameSpaceVer (l : List Char) : Option PackageInfo :=
  let (g1, r1) := l.span isAlnumDash
  if g1.isEmpty then none else
  let (ws, r2) := r1.span isJsWhitespace
  if ws.isEmpty then none else
  let r3 := match r2 with
    | 'v' :: t => t
    | _ => r2
  match parseVer r3 with
  | some (ver, []) => some ⟨g1.asString, ver.asString⟩
  | _ => none

/-- Pattern 5: `/^([a-zA-Z0-9-]+)-(\d+\.\d+\.\d+(?:-[a-zA-Z0-9.-]+)?)$/`.

Here `-` belongs to the class of group 1, so greedy backtracking is
real: the regex engine tries every split `g1 ++ '-' ++ version`, with
`g1` a nonempty all-class prefix, longest `g1` first. -/
def dashSplitGo (l : List Char) : Nat → Option PackageInfo
  | 0 => none
  | k + 1 =>
    let g1 := l.take (k + 1)
    let rest := l.drop (k + 1)
    (if g1.all isAlnumDash then
      match rest with
      | '-' :: t =>
        match parseVer t with
        | some (ver, []) => some ⟨g1.asString, ver.asString⟩
        | _ => dashSplitGo l k
      | _ => dashSplitGo l k
    else dashSplitGo l k)

def matchNameDashVer (l : List Char) : Option PackageInfo :=
  dashSplitGo l (l.length - 1)

/-- `/^\d+(?:\.\d+){1,3}$/` — the version-like test in the fallback. -/
def splitDots : List Char → List (List Char)
  | [] => [[]]
  | c :: cs =>
    let r := splitDots cs
    if c == '.' then [] :: r
    else
      match r with
      | h :: t => (c :: h) :: t
      | [] => [[c]]

def isNumericDotted (l : List Char) : Bool :=
  let gs := splitDots l
  decide (2 ≤ gs.length) && decide (gs.length ≤ 4) &&
    gs.all (fun g => !g.isEmpty && g.all Char.isDigit)

/-- `title.replace(/^version\s+|^v\s+/i, '')`: strip a leading
case-insensitive `version` or `v` marker together with the following
(maximal, nonempty) whitespace run. -/
def stripVerMarker (l : List Char) : List Char :=
  let low := l.map Char.toLower
  if (dropLit "version".data low).isSome then
    let r := l.drop 7
    match r with
    | c :: _ => if isJsWhitespace c then r.dropWhile isJsWhitespace else l
    | [] => l
  else
    match low with
    | 'v' :: c :: _ => if isJsWhitespace c then (l.drop 1).dropWhile isJsWhitespace else l
    | _ => l

/-- The no-pattern fallback of `extractPackageInfo`: split the title on
`/[\s-]/`; with at least two parts, a generic first token
(`version`/`v`/numeric-dotted, case-insensitively) yields the default
identity with the marker stripped, otherwise the first token is the
package name and `title.replace(first, '').trim()` (the first token is a
prefix of the title, so the first occurrence replaced is that prefix) is
the version; with a single part the whole title is the version. -/
def isSepChar (c : Char) : Bool :=
  isJsWhitespace c || c == '-'

def fallbackExtract (title : String) : PackageInfo :=
  let l := title.data
  if l.any isSepChar then
    let firstL := l.takeWhile (fun c => !isSepChar c)
    let first := firstL.asString
    if jsToLower first = "version" ∨ jsToLower first = "v" ∨ isNumericDotted firstL then
      ⟨"default", (jsTrimList (stripVerMarker l)).asString⟩
    else
      ⟨first, (jsTrimList (l.drop firstL.length)).asString⟩
  else
    ⟨"default", title⟩

/-- The five patterns in source order, first match wins; the
`pattern.toString().includes(..)` dispatch of the source selects, for
each pattern, exactly the construction transcribed in its matcher above. -/
def tryPatterns (l : List Char) : Option PackageInfo :=
  (matchScopedAt l).orElse fun _ =>
  (matchNameAt l).orElse fun _ =>
  (matchVerParen l).orElse fun _ =>
  (matchNameSpaceVer l).orElse fun _ =>
  matchNameDashVer l

/-- `extractPackageInfo` from `release-grouping.ts`: `null` on the empty
(falsy) title, otherwise the first matching pattern or the fallback. -/
def extractPackageInfo (title : String) : Option PackageInfo :=
  if title = "" then none
  else some (match tryPatterns title.data with
    | some p => p
    | none => fallbackExtract title)

/-! ## Data model -/

/-- The platform-agnostic `Release` interface of `repo-api.ts` (the
nested `author` object and the `id` union type are irrelevant to every
algorithm here and are carried as plain data). -/
structure Release where
  id : Nat
  url : String
  html_url : String
  tag_name : String
  name : String
  draft : Bool
  prerelease : Bool
  created_at : String
  published_at : String
  body : String
deriving DecidableEq, Repr

/-- `GroupedRelease`: a release plus the derived grouping fields. -/
structure GroupedRelease extends Release where
  packageName : String
  version : String
  sortKey : String
  notesExpanded : Bool
deriving DecidableEq, Repr

/-- `PackageGroup`. `latestRelease` is an `Option` in the embedding;
the source guarantees every group is built from a nonempty list, where
`releases[0]` is defined. -/
structure PackageGroup where
  name : String
  releases : List GroupedRelease
  latestRelease : Option GroupedRelease
  releaseCount : Nat
  isExpanded : Bool
deriving DecidableEq, Repr

/-- `GroupedReleases` (current revision: no `ungrouped` field). -/
structure GroupedReleases where
  groups : List PackageGroup
  totalReleases : Nat
deriving DecidableEq, Repr

/-! ## `new Date(s).getTime()` for UTC ISO-8601 timestamps

Milliseconds since the Unix epoch for `YYYY-MM-DD` and
`YYYY-MM-DDTHH:MM:SS[.mmm]Z` with a calendar-valid date, year ≥ 1970;
`none` models an invalid date (`NaN`). -/

def isLeapYear (y : Nat) : Bool :=
  y % 4 == 0 && (y % 100 != 0 || y % 400 == 0)

def daysInMonth (y m : Nat) : Nat :=
  if m = 2 then (if isLeapYear y then 29 else 28)
  else if m = 4 ∨ m = 6 ∨ m = 9 ∨ m = 11 then 30
  else 31

def daysBeforeYear (y : Nat) : Nat :=
  (List.range (y - 1970)).foldl (fun a i => a + (if isLeapYear (1970 + i) then 366 else 365)) 0

def daysBeforeMonth (y m : Nat) : Nat :=
  (List.range (m - 1)).foldl (fun a i => a + daysInMonth y (i + 1)) 0

def epochDays (y m d : Nat) : Nat :=
  daysBeforeYear y + daysBeforeMonth y m + (d - 1)

/-- Read exactly `n` decimal digits. -/
def readDigits (n : Nat) (l : List Char) : Option (Nat × List Char) :=
  let ds := l.take n
  if ds.length = n ∧ ds.all Char.isDigit then some (digitsVal ds, l.drop n) else none

def parseIsoDate (l : List Char) : Option (Nat × List Char) :=
  match readDigits 4 l with
  | none => none
  | some (y, r1) =>
    match r1 with
    | '-' :: r2 =>
      match readDigits 2 r2 with
      | none => none
      | some (m, r3) =>
        match r3 with
        | '-' :: r4 =>
          match readDigits 2 r4 with
          | none => none
          | some (d, r5) =>
            if 1970 ≤ y ∧ 1 ≤ m ∧ m ≤ 12 ∧ 1 ≤ d ∧ d ≤ daysInMonth y m then
              some (epochDays y m d, r5)
            else none
        | _ => none
    | _ => none

def parseIsoTime (l : List Char) : Option Nat :=
  match readDigits 2 l with
  | some (h, ':' :: r1) =>
    match readDigits 2 r1 with
    | some (mi, ':' :: r2) =>
      match readDigits 2 r2 with
      | some (s, r3) =>
        if h ≤ 23 ∧ mi ≤ 59 ∧ s ≤ 59 then
          match r3 with
          | ['Z'] => some ((h * 3600 + mi * 60 + s) * 1000)
          | '.' :: r4 =>
            match readDigits 3 r4 with
            | some (ms, ['Z']) => some ((h * 3600 + mi * 60 + s) * 1000 + ms)
            | _ => none
          | _ => none
        else none
      | _ => none
    | _ => none
  | _ => none

def jsDateMs (s : String) : Option Nat :=
  match parseIsoDate s.data with
  | some (days, []) => some (days * 86400000)
  | some (days, 'T' :: rest) =>
    match parseIsoTime rest with
    | some ms => some (days * 86400000 + ms)
    | none => none
  | _ => none

/-! ## `Array.prototype.sort` with a comparator

`jsSort gt` is a stable sort placing `x` before the first earlier
element `y` with `gt y x` (that is, with `comparator(y, x) > 0`); for a
consistent comparator this is exactly the ES2019 stable-sort contract. -/

def insertStable (gt : α → α → Bool) (x : α) : List α → List α
  | [] => [x]
  | y :: ys => if gt y x then x :: y :: ys else y :: insertStable gt x ys

def jsSort (gt : α → α → Bool) (l : List α) : List α :=
  l.foldl (fun acc x => insertStable gt x acc) []

/-! ## PackageGrouper (`groupReleasesByPackage`, current revision) -/

/-- Step 1 of the grouping: resolve the package identity of one record
from the tag name, falling back to the release name only when the tag
yields nothing or `default` (and the name yields a non-empty,
non-`default`, non-`version` name), finally defaulting to
`{packageName: 'default', version: tag_name || name}`. -/
def resolvePackageInfo (r : Release) : PackageInfo :=
  let tagInfo := extractPackageInfo r.tag_name
  let chosen := match tagInfo with
    | none => extractPackageInfo r.name
    | some p =>
      if p.packageName = "default" then
        match extractPackageInfo r.name with
        | some n =>
          if n.packageName ≠ "" ∧ n.packageName ≠ "default" ∧ jsToLower n.packageName ≠ "version"
          then some n else some p
        | none => some p
      else some p
  match chosen with
  | some p => p
  | none => ⟨"default", jsOr r.tag_name r.name⟩

/-- The processed record: resolved identity plus the date sort key
(`published_at || created_at`). -/
def toGrouped (r : Release) : GroupedRelease :=
  { r with
    packageName := (resolvePackageInfo r).packageName
    version := (resolvePackageInfo r).version
    sortKey := jsOr r.published_at r.created_at
    notesExpanded := false }

/-- The grouping loop rewrites a case-insensitive `version` package name
to `default` on the record itself. -/
def normalizeGrouped (g : GroupedRelease) : GroupedRelease :=
  if jsToLower g.packageName = "version" then { g with packageName := "default" } else g

/-- A record counts towards `hasPatterns` when its resolved name is
truthy, not `default` and not case-insensitively `version`. -/
def isMeaningfulName (s : String) : Bool :=
  s ≠ "" && s ≠ "default" && jsToLower s ≠ "version"

/-- The batch-level `hasPatterns` boolean: at least one record with a
meaningful resolved name. -/
def hasMeaningfulGrouping (releases : List Release) : Bool :=
  0 < ((releases.map toGrouped).filter fun g => isMeaningfulName g.packageName).length

/-- `repoName && repoName.trim().length > 0 ? repoName : 'repository'`. -/
def repoGroupNameOf (repoName : Option String) : String :=
  match repoName with
  | none => "repository"
  | some s => if s ≠ "" ∧ 0 < (jsTrim s).length then s else "repository"

/-- The group key of one (already normalized) record:
`!hasPatterns || pkg === 'default' ? repoGroupName : pkg`. -/
def groupKeyOf (hasPatterns : Bool) (repoGroupName : String) (g : GroupedRelease) : String :=
  if !hasPatterns || g.packageName == "default" then repoGroupName else g.packageName

/-- Insertion-ordered map push, modelling `Map.prototype.set`/`get(..).push`. -/
def pushEntry (m : List (String × List GroupedRelease)) (k : String) (v : GroupedRelease) :
    List (String × List GroupedRelease) :=
  match m with
  | [] => [(k, [v])]
  | (k', vs) :: rest =>
    if k' = k then (k', vs ++ [v]) :: rest else (k', vs) :: pushEntry rest k v

/-- The `groupMap` accumulation loop over a list of keyed values. -/
def bucketize (key : GroupedRelease → String) (l : List GroupedRelease) :
    List (String × List GroupedRelease) :=
  l.foldl (fun m v => pushEntry m (key v) v) []

/-- The date comparator `(a, b) => new Date(b.sortKey).getTime() - new
Date(a.sortKey).getTime()`; an unparseable key is mapped to time 0 (the
source comparator would return `NaN` there, leaving the order
unspecified — statements about order therefore assume parseable keys). -/
def timeOf (g : GroupedRelease) : Nat :=
  (jsDateMs g.sortKey).getD 0

def dateGt (y x : GroupedRelease) : Bool :=
  decide (timeOf y < timeOf x)

def mkGroup (e : String × List GroupedRelease) : PackageGroup :=
  { name := e.1
    releases := e.2
    latestRelease := e.2.head?
    releaseCount := e.2.length
    isExpanded := false }

/-- `groupReleasesByPackage(releases, repoName)` — current revision.
`lc` models the locale-dependent `a.name.localeCompare(b.name)` of the
final group ordering. (`detectPackagePatterns` is still invoked by the
source but its result is unused in this revision.) -/
def groupReleasesByPackage (releases : List Release) (repoName : Option String)
    (lc : String → String → Int) : GroupedReleases :=
  let processed := releases.map toGrouped
  let repoGroupName := repoGroupNameOf repoName
  let hasPatterns := hasMeaningfulGrouping releases
  let buckets := bucketize (groupKeyOf hasPatterns repoGroupName) (processed.map normalizeGrouped)
  let sorted := buckets.map fun e => (e.1, jsSort dateGt e.2)
  let groups := sorted.map mkGroup
  { groups := jsSort (fun y x => decide (0 < lc y.name x.name)) groups
    totalReleases := processed.length }

/-! ## PaginatedFetcher and RetryPolicy (`github-api.ts`) -/

/-- The failures `fetchReleasesPage` can throw. The source throws
`Error` objects and downstream code dispatches on the message text, so
each constructor records the data interpolated into its message and
`FetchError.message` rebuilds the exact source string. For the
rate-limit failure, `resetMs` is the decoded reset instant
(`parseInt(header) * 1000`, `none` for an unparseable header, i.e.
`NaN`) and `localeText` its locale-dependent
`toLocaleTimeString()` rendering. -/
inductive FetchError where
  | notFound (owner repo : String)
  | rateLimited (resetMs : Option Int) (localeText : String)
  | remoteError (status : Nat) (statusText : String)
deriving DecidableEq, Repr

def FetchError.message : FetchError → String
  | .notFound owner repo => "Repository " ++ owner ++ "/" ++ repo ++ " not found"
  | .rateLimited _ t => "GitHub API rate limit exceeded. Resets at " ++ t
  | .remoteError status statusText =>
    "GitHub API error: " ++ toString status ++ " " ++ statusText

/-- `parseInt(s, 10)`: optional whitespace, optional sign, then a
nonempty maximal digit run; `none` models `NaN`. -/
def jsParseInt (s : String) : Option Int :=
  let l := s.data.dropWhile isJsWhitespace
  let (sign, l2) : Int × List Char := match l with
    | '-' :: t => (-1, t)
    | '+' :: t => (1, t)
    | _ => (1, l)
  let ds := l2.takeWhile Char.isDigit
  if ds.isEmpty then none else some (sign * (digitsVal ds : Int))

/-- `headers.get(name) || dflt` (absent and empty values are falsy). -/
def headerOr (h : Option String) (dflt : String) : String :=
  match h with
  | none => dflt
  | some s => jsOr s dflt

/-- A remote HTTP response as the source observes it: status line,
headers (`headers.get`), and the JSON-decoded body of a success.
`response.ok` is `200 ≤ status ≤ 299` per the fetch specification. -/
structure HttpResponse where
  status : Nat
  statusText : String
  headers : String → Option String
  body : List Release

def respOk (r : HttpResponse) : Bool :=
  decide (200 ≤ r.status) && decide (r.status ≤ 299)

structure RateLimitInfo where
  limit : Option Int
  remaining : Option Int
  reset : Option Int
deriving DecidableEq, Repr

structure ApiResponseMeta where
  rateLimit : RateLimitInfo
  lastPage : Nat
  totalCount : Option Nat
deriving DecidableEq, Repr

structure ApiResponse where
  releases : List Release
  meta : ApiResponseMeta
deriving DecidableEq, Repr

def extractRateLimitInfo (headers : String → Option String) : RateLimitInfo :=
  { limit := jsParseInt (headerOr (headers "x-ratelimit-limit") "60")
    remaining := jsParseInt (headerOr (headers "x-ratelimit-remaining") "0")
    reset := jsParseInt (headerOr (headers "x-ratelimit-reset") "0") }

/-- One step of the unanchored search for
`/page=(\d+)&per_page=\d+>; rel="last"/` at the current position. -/
def lastPageAt (l : List Char) : Option Nat :=
  match dropLit "page=".data l with
  | none => none
  | some r1 =>
    let (ds, r2) := r1.span Char.isDigit
    if ds.isEmpty then none else
    match dropLit "&per_page=".data r2 with
    | none => none
    | some r3 =>
      let (ds2, r4) := r3.span Char.isDigit
      if ds2.isEmpty then none else
      if (dropLit ">; rel=\"last\"".data r4).isSome then some (digitsVal ds) else none

def scanLastPage : List Char → Option Nat
  | [] => none
  | c :: rest =>
    match lastPageAt (c :: rest) with
    | some n => some n
    | none => scanLastPage rest

/-- `extractLastPage`: 1 for a falsy Link header or no match, otherwise
the page number of the leftmost `rel="last"` link. -/
def extractLastPage (link : Option String) : Nat :=
  match link with
  | none => 1
  | some s =>
    if s = "" then 1
    else match scanLastPage s.data with
      | some n => n
      | none => 1

/-- `fetchReleasesPage` given the response of the remote call.
`localeTime` models `Date.prototype.toLocaleTimeString` on the decoded
reset instant. A non-ok response throws: status 403 with the
`x-ratelimit-remaining` header string strictly equal to `'0'` throws the
rate-limit error; otherwise status 404 throws not-found; any other
non-ok status throws the generic remote error. -/
def fetchReleasesPage (localeTime : Option Int → String) (owner repo : String)
    (resp : HttpResponse) : Except FetchError ApiResponse :=
  if !respOk resp then
    if resp.status = 403 ∧ resp.headers "x-ratelimit-remaining" = some "0" then
      let resetMs := (jsParseInt (headerOr (resp.headers "x-ratelimit-reset") "0")).map (· * 1000)
      .error (.rateLimited resetMs (localeTime resetMs))
    else if resp.status = 404 then
      .error (.notFound owner repo)
    else
      .error (.remoteError resp.status resp.statusText)
  else
    .ok { releases := resp.body
          meta := { rateLimit := extractRateLimitInfo resp.headers
                    lastPage := extractLastPage (resp.headers "Link")
                    totalCount := none } }

/-- Sequence the page fetches of `Promise.all([...])`: the all-success
result is the in-order list of page responses; a failure propagates (in
the running system whichever rejection settles first surfaces — the
claims below only concern the all-success case). -/
def collectPages (pageData : Nat → Except FetchError ApiResponse) :
    List Nat → Except FetchError (List ApiResponse)
  | [] => .ok []
  | i :: rest =>
    match pageData i with
    | .error e => .error e
    | .ok p =>
      match collectPages pageData rest with
      | .error e => .error e
      | .ok ps => .ok (p :: ps)

/-- `fetchAllReleases` (production path; the development-mode
example-data shortcut is compiled out of production builds): page 1
first, whose metadata discloses `lastPage`; then pages `2..lastPage`
via `Promise.all`; the records are concatenated in page order and the
metadata is page 1's with `totalCount` overridden by the concatenated
length. `pageData n` is the outcome of fetching page `n`. -/
def fetchAllReleases (pageData : Nat → Except FetchError ApiResponse) :
    Except FetchError ApiResponse :=
  match pageData 1 with
  | .error e => .error e
  | .ok first =>
    match collectPages pageData (List.range' 2 (first.meta.lastPage - 1)) with
    | .error e => .error e
    | .ok rest =>
      let all := rest.foldl (fun acc p => acc ++ p.releases) first.releases
      .ok { releases := all
            meta := { first.meta with totalCount := some all.length } }

/-- Leftmost match of `/Resets at (.+)$/` in a message: the suffix
following some occurrence of `Resets at `, provided that suffix is
nonempty and free of line terminators (`$` anchors at the end of the
string and `.` excludes line terminators). -/
def resetsAtGroup : List Char → Option String
  | [] => none
  | c :: rest =>
    match dropLit "Resets at ".data (c :: rest) with
    | some tail =>
      if !tail.isEmpty && tail.all (fun ch => !isLineTerm ch) then some tail.asString
      else resetsAtGroup rest
    | none => resetsAtGroup rest

/-- The wait time of the rate-limit branch after invocation `idx`
failed with `e`: present exactly when the message includes
`rate limit exceeded` and the `Resets at (.+)$` match succeeds. `env idx
m` models the environmental quantity `new Date(m).getTime() - Date.now()
+ 1000` computed from the matched reset text `m` (`none` when the
parsed date is invalid, in which case both `NaN` comparisons below are
false and the generic backoff branch runs). -/
def rlWaitOf (env : Nat → String → Option Int) (idx : Nat) (e : FetchError) : Option Int :=
  if containsSub e.message "rate limit exceeded" then
    match resetsAtGroup e.message.data with
    | some m => env idx m
    | none => none
  else none

/-- The body of `retryWithBackoff(fn, retries, delay)` over an outcome
stream `op` (the `idx`-th invocation's outcome). Returns the settled
outcome together with the number of invocations performed. The
rate-limit wait branch keeps `delay` unchanged; the backoff branch
doubles it; both consume one retry. A failure with `retries === 0` is
rethrown at once. -/
def retryGo (op : Nat → Except FetchError α) (env : Nat → String → Option Int)
    (idx : Nat) : Nat → Nat → Except FetchError α × Nat
  | 0, _ =>
    match op idx with
    | .ok a => (.ok a, 1)
    | .error e => (.error e, 1)
  | retries + 1, delay =>
    match op idx with
    | .ok a => (.ok a, 1)
    | .error e =>
      match rlWaitOf env idx e with
      | some w =>
        if 0 < w ∧ w < 900000 then
          let r := retryGo op env (idx + 1) retries delay
          (r.1, r.2 + 1)
        else
          let r := retryGo op env (idx + 1) retries (delay * 2)
          (r.1, r.2 + 1)
      | none =>
        let r := retryGo op env (idx + 1) retries (delay * 2)
        (r.1, r.2 + 1)

def retryWithBackoff (op : Nat → Except FetchError α) (env : Nat → String → Option Int)
    (retries delay : Nat) : Except FetchError α × Nat :=
  retryGo op env 0 retries delay

/-- The full per-record resolution: identity extraction plus the
`version` → `default` normalization applied by the grouping loop. -/
def processRelease (r : Release) : GroupedRelease :=
  normalizeGrouped (toGrouped r)

/-! ### Concrete inputs used by counterexamples and witnesses -/

/-- A release record with the given labels and timestamps (remaining
fields fixed, none of them inspected by the algorithms). -/
def sampleRelease (tag nm pub cre : String) : Release :=
  { id := 0, url := "", html_url := "", tag_name := tag, name := nm,
    draft := false, prerelease := false, created_at := cre, published_at := pub,
    body := "" }

/-- A record whose tag label starts with a separator: the extraction
fallback resolves it to the empty package name. -/
def blankNameRelease : Release :=
  sampleRelease " x" "" "2025-01-01T00:00:00Z" "2025-01-01T00:00:00Z"

/-- Two records of one package published a day apart. -/
def jan1Release : Release :=
  sampleRelease "pkg-a@1.0.0" "" "2025-01-01T00:00:00Z" "2025-01-01T00:00:00Z"

def jan2Release : Release :=
  sampleRelease "pkg-a@1.0.1" "" "2025-01-02T00:00:00Z" "2025-01-02T00:00:00Z"

/-- A record resolving to the default identity. -/
def defaultOnlyRelease : Release :=
  sampleRelease "v1.0.0" "" "2025-01-01T00:00:00Z" "2025-01-01T00:00:00Z"

/-- Two concrete result pages whose rate-limit snapshots differ. -/
def cexPage1 : ApiResponse :=
  { releases := []
    meta := { rateLimit := { limit := some 60, remaining := some 10, reset := some 100 }
              lastPage := 2, totalCount := none } }

def cexPage2 : ApiResponse :=
  { releases := []
    meta := { rateLimit := { limit := some 60, remaining := some 9, reset := some 200 }
              lastPage := 2, totalCount := none } }

/-- A two-page collection: page 1 is `cexPage1`, later pages `cexPage2`. -/
def cexPages : Nat → Except FetchError ApiResponse :=
  fun i => if i = 1 then Except.ok cexPage1 else Except.ok cexPage2

/-- Descending order by timestamp. -/
def SortedDesc (l : List GroupedRelease) : Prop :=
  l.Pairwise fun a b => timeOf b ≤ timeOf a

/-- Lookup in the association list modelling `Map.prototype.get`. -/
def findBucket (k : String) : List (String × List GroupedRelease) → Option (List GroupedRelease)
  | [] => none
  | (k', vs) :: rest => if k' = k then some vs else findBucket k rest

/-! ## Lemmas about the stable sort -/

theorem insertStable_perm (gt : α → α → Bool) (x : α) (l : List α) :
    List.Perm (insertStable gt x l) (x :: l) := by
  induction l with
  | nil => simp [insertStable]
  | cons y ys ih =>
    simp only [insertStable]
    split
    · exact List.Perm.refl _
    · exact (List.Perm.cons y ih).trans (List.Perm.swap x y ys)

theorem jsSortGo_perm (gt : α → α → Bool) :
    ∀ (l acc : List α), List.Perm (l.foldl (fun a x => insertStable gt x a) acc) (l ++ acc) := by
  intro l
  induction l with
  | nil => intro acc; simp
  | cons x xs ih =>
    intro acc
    simp only [List.foldl_cons]
    have h1 := ih (insertStable gt x acc)
    have h2 : List.Perm (xs ++ insertStable gt x acc) (xs ++ x :: acc) :=
      List.Perm.append_left _ (insertStable_perm gt x acc)
    have h3 : List.Perm (xs ++ x :: acc) (x :: (xs ++ acc)) := List.perm_middle
    exact (h1.trans h2).trans h3

theorem jsSort_perm (gt : α → α → Bool) (l : List α) : List.Perm (jsSort gt l) l := by
  simpa using jsSortGo_perm gt l []

theorem jsSort_length (gt : α → α → Bool) (l : List α) :
    (jsSort gt l).length = l.length :=
  (jsSort_perm gt l).length_eq

theorem mem_jsSort {gt : α → α → Bool} {l : List α} {x : α} :
    x ∈ jsSort gt l ↔ x ∈ l :=
  (jsSort_perm gt l).mem_iff

theorem insertStable_dateGt_sorted {l : List GroupedRelease} (x : GroupedRelease)
    (h : SortedDesc l) : SortedDesc (insertStable dateGt x l) := by
  induction l with
  | nil => simp [insertStable, SortedDesc]
  | cons y ys ih =>
    rcases List.pairwise_cons.mp h with ⟨hy, hys⟩
    simp only [insertStable]
    by_cases hgt : dateGt y x = true
    · rw [if_pos hgt]
      have hyx : timeOf y < timeOf x := of_decide_eq_true hgt
      refine List.pairwise_cons.mpr ⟨?_, h⟩
      intro z hz
      rcases List.mem_cons.mp hz with hz | hz
      · exact hz ▸ le_of_lt hyx
      · exact le_trans (hy z hz) (le_of_lt hyx)
    · rw [if_neg hgt]
      have hxy : timeOf x ≤ timeOf y := by
        have : ¬ timeOf y < timeOf x := fun hc => hgt (decide_eq_true hc)
        omega
      refine List.pairwise_cons.mpr ⟨?_, ih hys⟩
      intro z hz
      have hz2 : z ∈ x :: ys := (insertStable_perm dateGt x ys).mem_iff.mp hz
      rcases List.mem_cons.mp hz2 with hz2 | hz2
      · exact hz2 ▸ hxy
      · exact hy z hz2

theorem jsSortGo_dateGt_sorted :
    ∀ (l acc : List GroupedRelease), SortedDesc acc →
      SortedDesc (l.foldl (fun a x => insertStable dateGt x a) acc) := by
  intro l
  induction l with
  | nil => intro acc h; simpa using h
  | cons x xs ih =>
    intro acc h
    simpa using ih _ (insertStable_dateGt_sorted x h)

theorem jsSort_dateGt_sorted (l : List GroupedRelease) : SortedDesc (jsSort dateGt l) :=
  jsSortGo_dateGt_sorted l [] (by simp [SortedDesc])

/-- Stability of the date sort: inserting `x` into a sorted accumulator
appends it after every element with the same timestamp. -/
theorem insertStable_dateGt_filter {l : List GroupedRelease} (x : GroupedRelease)
    (h : SortedDesc l) (t : Nat) :
    (insertStable dateGt x l).filter (fun r => timeOf r == t) =
      l.filter (fun r => timeOf r == t) ++ (if timeOf x = t then [x] else []) := by
  induction l with
  | nil => by_cases hx : timeOf x = t <;> simp [insertStable, hx]
  | cons y ys ih =>
    rcases List.pairwise_cons.mp h with ⟨hy, hys⟩
    simp only [insertStable]
    by_cases hgt : dateGt y x = true
    · rw [if_pos hgt]
      have hyx : timeOf y < timeOf x := of_decide_eq_true hgt
      by_cases hx : timeOf x = t
      · have h1 : (y :: ys).filter (fun r => timeOf r == t) = [] := by
          apply List.filter_eq_nil_iff.mpr
          intro z hz
          rcases List.mem_cons.mp hz with hz | hz
          · subst hz; simp; omega
          · have := hy z hz; simp; omega
        simp [hx, h1, List.filter_cons]
      · rw [if_neg hx, List.append_nil, List.filter_cons]
        by_cases hyt : timeOf y = t <;> simp [hyt, hx]
    · rw [if_neg hgt]
      rw [List.filter_cons, List.filter_cons, ih hys]
      by_cases hyt : timeOf y = t <;> simp [hyt]

theorem jsSortGo_dateGt_filter :
    ∀ (l acc : List GroupedRelease), SortedDesc acc → ∀ t,
      (l.foldl (fun a x => insertStable dateGt x a) acc).filter (fun r => timeOf r == t) =
        acc.filter (fun r => timeOf r == t) ++ l.filter (fun r => timeOf r == t) := by
  intro l
  induction l with
  | nil => intro acc h t; simp
  | cons x xs ih =>
    intro acc h t
    simp only [List.foldl_cons]
    rw [ih _ (insertStable_dateGt_sorted x h) t, insertStable_dateGt_filter x h t,
      List.filter_cons]
    by_cases hx : timeOf x = t <;> simp [hx]

/-- The date sort preserves the relative order of releases with equal
timestamps. -/
theorem jsSort_dateGt_filter (l : List GroupedRelease) (t : Nat) :
    (jsSort dateGt l).filter (fun r => timeOf r == t) =
      l.filter (fun r => timeOf r == t) := by
  simpa using jsSortGo_dateGt_filter l [] (by simp [SortedDesc]) t

/-! ## Lemmas about the insertion-ordered group map -/

theorem findBucket_pushEntry (m : List (String × List GroupedRelease)) (k k' : String)
    (v : GroupedRelease) :
    findBucket k (pushEntry m k' v) =
      if k' = k then some ((findBucket k m).getD [] ++ [v]) else findBucket k m := by
  induction m with
  | nil =>
    by_cases h : k' = k <;> simp [pushEntry, findBucket, h]
  | cons e rest ih =>
    obtain ⟨k0, vs0⟩ := e
    simp only [pushEntry]
    by_cases h0 : k0 = k'
    · rw [if_pos h0]
      by_cases hk : k' = k
      · subst h0; subst hk; simp [findBucket]
      · subst h0
        simp [findBucket, hk]
    · rw [if_neg h0]
      by_cases h1 : k0 = k
      · subst h1
        have hk : k' ≠ k0 := fun hc => h0 hc.symm
        simp [findBucket, if_neg hk, hk]
      · simp only [findBucket, if_neg h1, ih]

theorem pushEntry_keys_subset (k : String) (v : GroupedRelease) :
    ∀ (m : List (String × List GroupedRelease)), ∀ k1 ∈ (pushEntry m k v).map Prod.fst,
      k1 ∈ m.map Prod.fst ∨ k1 = k := by
  intro m
  induction m with
  | nil =>
    intro k1 hk1
    simp [pushEntry] at hk1
    exact Or.inr hk1
  | cons e rest ih =>
    intro k1 hk1
    obtain ⟨k0, vs0⟩ := e
    simp only [pushEntry] at hk1
    by_cases hsplit : k0 = k
    · rw [if_pos hsplit] at hk1
      simp only [List.map_cons, List.mem_cons] at hk1
      rcases hk1 with hk1 | hk1
      · exact Or.inl (by simp [hk1])
      · exact Or.inl (by simp [hk1])
    · rw [if_neg hsplit] at hk1
      simp only [List.map_cons, List.mem_cons] at hk1
      rcases hk1 with hk1 | hk1
      · exact Or.inl (by simp [hk1])
      · rcases ih k1 hk1 with h' | h'
        · exact Or.inl (by simp [h'])
        · exact Or.inr h'

theorem bucketKeys_nodup_pushEntry (m : List (String × List GroupedRelease)) (k : String)
    (v : GroupedRelease) (h : (m.map Prod.fst).Nodup) :
    ((pushEntry m k v).map Prod.fst).Nodup := by
  induction m with
  | nil => simp [pushEntry]
  | cons e rest ih =>
    obtain ⟨k0, vs0⟩ := e
    simp only [List.map_cons, List.nodup_cons] at h
    obtain ⟨h0, h1⟩ := h
    simp only [pushEntry]
    by_cases hk : k0 = k
    · rw [if_pos hk]
      simpa using And.intro h0 h1
    · rw [if_neg hk]
      simp only [List.map_cons, List.nodup_cons]
      refine ⟨?_, ih h1⟩
      intro hc
      rcases pushEntry_keys_subset k v rest k0 hc with h' | h'
      · exact h0 h'
      · exact hk h'

/-- The characteristic fact about the grouping loop: each key's final
bucket is the in-order sublist of the input with that key. -/
theorem findBucket_foldl (key : GroupedRelease → String) :
    ∀ (l : List GroupedRelease) (m : List (String × List GroupedRelease)) (k : String),
      (findBucket k (l.foldl (fun m' v => pushEntry m' (key v) v) m)).getD [] =
        (findBucket k m).getD [] ++ l.filter (fun v => key v == k) := by
  intro l
  induction l with
  | nil => intro m k; simp
  | cons v vs ih =>
    intro m k
    simp only [List.foldl_cons]
    rw [ih (pushEntry m (key v) v) k, findBucket_pushEntry, List.filter_cons]
    by_cases hk : key v = k
    · rw [if_pos hk]
      simp [hk]
    · rw [if_neg hk]
      simp [hk]

theorem findBucket_foldl_isSome (key : GroupedRelease → String) :
    ∀ (l : List GroupedRelease) (m : List (String × List GroupedRelease)) (k : String),
      (findBucket k (l.foldl (fun m' v => pushEntry m' (key v) v) m)).isSome =
        ((findBucket k m).isSome || l.any (fun v => key v == k)) := by
  intro l
  induction l with
  | nil => intro m k; simp
  | cons v vs ih =>
    intro m k
    simp only [List.foldl_cons]
    rw [ih (pushEntry m (key v) v) k, findBucket_pushEntry]
    by_cases hk : key v = k
    · rw [if_pos hk]
      simp [hk]
    · rw [if_neg hk]
      have hfalse : (key v == k) = false := beq_eq_false_iff_ne.mpr hk
      simp [List.any_cons, hfalse]

theorem bucketKeys_nodup_foldl (key : GroupedRelease → String) :
    ∀ (l : List GroupedRelease) (m : List (String × List GroupedRelease)),
      (m.map Prod.fst).Nodup →
        (((l.foldl (fun m' v => pushEntry m' (key v) v) m)).map Prod.fst).Nodup := by
  intro l
  induction l with
  | nil => intro m h; simpa using h
  | cons v vs ih =>
    intro m h
    simpa using ih (pushEntry m (key v) v) (bucketKeys_nodup_pushEntry m (key v) v h)

theorem bucketize_keys_nodup (key : GroupedRelease → String) (l : List GroupedRelease) :
    ((bucketize key l).map Prod.fst).Nodup :=
  bucketKeys_nodup_foldl key l [] (by simp)

theorem mem_iff_findBucket {m : List (String × List GroupedRelease)}
    (h : (m.map Prod.fst).Nodup) (k : String) (vs : List GroupedRelease) :
    (k, vs) ∈ m ↔ findBucket k m = some vs := by
  induction m with
  | nil => simp [findBucket]
  | cons e rest ih =>
    obtain ⟨k0, vs0⟩ := e
    simp only [List.map_cons, List.nodup_cons] at h
    obtain ⟨h0, h1⟩ := h
    simp only [List.mem_cons, findBucket]
    by_cases hk : k0 = k
    · subst hk
      rw [if_pos rfl]
      constructor
      · intro hmem
        rcases hmem with hmem | hmem
        · simp at hmem
          simp [hmem]
        · exact absurd (List.mem_map.mpr ⟨(k0, vs), hmem, rfl⟩) h0
      · intro hsome
        left
        simp at hsome
        simp [hsome]
    · rw [if_neg hk]
      rw [← ih h1]
      constructor
      · intro hmem
        rcases hmem with hmem | hmem
        · exact absurd (congrArg Prod.fst hmem).symm hk
        · exact hmem
      · exact Or.inr

theorem mem_bucketize_iff (key : GroupedRelease → String) (l : List GroupedRelease)
    (k : String) (vs : List GroupedRelease) :
    (k, vs) ∈ bucketize key l ↔
      vs = l.filter (fun v => key v == k) ∧ l.any (fun v => key v == k) = true := by
  rw [mem_iff_findBucket (bucketize_keys_nodup key l)]
  have hget := findBucket_foldl key l [] k
  have hsome := findBucket_foldl_isSome key l [] k
  simp only [findBucket, Option.getD_none, List.nil_append, Option.isSome_none,
    Bool.false_or] at hget hsome
  constructor
  · intro h
    rw [bucketize] at h
    rw [h] at hget hsome
    simp at hget hsome
    obtain ⟨x, hx, hkx⟩ := hsome
    exact ⟨hget, List.any_eq_true.mpr ⟨x, hx, by simp [hkx]⟩⟩
  · intro ⟨h1, h2⟩
    rw [bucketize]
    rw [h2] at hsome
    rcases Option.isSome_iff_exists.mp hsome with ⟨vs0, hvs0⟩
    rw [hvs0] at hget ⊢
    simp at hget
    rw [h1, ← hget]

/-- Every input value lands in the bucket of its key. -/
theorem mem_bucket_of_mem (key : GroupedRelease → String) (l : List GroupedRelease)
    (v : GroupedRelease) (hv : v ∈ l) :
    (key v, l.filter (fun w => key w == key v)) ∈ bucketize key l := by
  rw [mem_bucketize_iff]
  exact ⟨rfl, List.any_eq_true.mpr ⟨v, hv, by simp⟩⟩

/-- The buckets exactly partition the input: total size is preserved. -/
theorem pushEntry_sizes (m : List (String × List GroupedRelease)) (k : String)
    (v : GroupedRelease) :
    ((pushEntry m k v).map (fun e => e.2.length)).sum =
      (m.map (fun e => e.2.length)).sum + 1 := by
  induction m with
  | nil => simp [pushEntry]
  | cons e rest ih =>
    obtain ⟨k0, vs0⟩ := e
    simp only [pushEntry]
    by_cases hk : k0 = k
    · rw [if_pos hk]; simp; omega
    · rw [if_neg hk]; simp [ih]; omega

theorem bucketize_sizes_foldl (key : GroupedRelease → String) :
    ∀ (l : List GroupedRelease) (m : List (String × List GroupedRelease)),
      (((l.foldl (fun m' v => pushEntry m' (key v) v) m)).map (fun e => e.2.length)).sum =
        (m.map (fun e => e.2.length)).sum + l.length := by
  intro l
  induction l with
  | nil => intro m; simp
  | cons v vs ih =>
    intro m
    simp only [List.foldl_cons, List.length_cons]
    rw [ih (pushEntry m (key v) v), pushEntry_sizes]
    omega

theorem bucketize_sizes (key : GroupedRelease → String) (l : List GroupedRelease) :
    ((bucketize key l).map (fun e => e.2.length)).sum = l.length := by
  simpa using bucketize_sizes_foldl key l []

/-! ## Structure of the grouping result -/

/-- A group of the result is exactly a date-sorted bucket of the keyed
partition of the processed (normalized) records. -/
theorem mem_groups_iff (releases : List Release) (repoName : Option String)
    (lc : String → String → Int) (g : PackageGroup) :
    g ∈ (groupReleasesByPackage releases repoName lc).groups ↔
      ∃ k vs,
        (k, vs) ∈ bucketize
          (groupKeyOf (hasMeaningfulGrouping releases) (repoGroupNameOf repoName))
          ((releases.map toGrouped).map normalizeGrouped) ∧
        g = mkGroup (k, jsSort dateGt vs) := by
  simp only [groupReleasesByPackage, mem_jsSort, List.mem_map]
  constructor
  · rintro ⟨e1, ⟨e0, he0, rfl⟩, rfl⟩
    exact ⟨e0.1, e0.2, he0, rfl⟩
  · rintro ⟨k, vs, hmem, rfl⟩
    exact ⟨(k, jsSort dateGt vs), ⟨(k, vs), hmem, rfl⟩, rfl⟩

theorem totalReleases_eq (releases : List Release) (repoName : Option String)
    (lc : String → String → Int) :
    (groupReleasesByPackage releases repoName lc).totalReleases = releases.length := by
  simp [groupReleasesByPackage]

/-! ## Claim theorems -/

/-- Claim C1: `groupReleasesByPackage` assigns each record to exactly one
group: for every batch and display name the `releaseCount`s of the
resulting groups sum to `totalReleases`, which equals the length of the
input batch, and an empty batch yields an empty group list (with
`totalReleases = 0` by the second conjunct). -/
theorem grouping_conserves_records (releases : List Release) (repoName : Option String)
    (lc : String → String → Int) :
    (((groupReleasesByPackage releases repoName lc).groups.map
        (fun g => g.releaseCount)).sum =
      (groupReleasesByPackage releases repoName lc).totalReleases) ∧
    (groupReleasesByPackage releases repoName lc).totalReleases = releases.length ∧
    (releases = [] → (groupReleasesByPackage releases repoName lc).groups = []) := by
  refine ⟨?_, totalReleases_eq releases repoName lc, ?_⟩
  · have hperm :
        List.Perm ((groupReleasesByPackage releases repoName lc).groups.map
          (fun g => g.releaseCount))
          (((bucketize
              (groupKeyOf (hasMeaningfulGrouping releases) (repoGroupNameOf repoName))
              ((releases.map toGrouped).map normalizeGrouped)).map
                (fun e => mkGroup (e.1, jsSort dateGt e.2))).map
                  (fun g => g.releaseCount)) := by
      apply List.Perm.map
      have h1 := jsSort_perm (fun y x => decide (0 < lc y.name x.name))
        (((bucketize
            (groupKeyOf (hasMeaningfulGrouping releases) (repoGroupNameOf repoName))
            ((releases.map toGrouped).map normalizeGrouped)).map
              (fun e => (e.1, jsSort dateGt e.2))).map mkGroup)
      simpa [groupReleasesByPackage, List.map_map, Function.comp] using h1
    rw [hperm.sum_eq, totalReleases_eq, List.map_map]
    have hcongr :
        ((bucketize
            (groupKeyOf (hasMeaningfulGrouping releases) (repoGroupNameOf repoName))
            ((releases.map toGrouped).map normalizeGrouped)).map
          ((fun g => g.releaseCount) ∘ (fun e => mkGroup (e.1, jsSort dateGt e.2)))) =
        ((bucketize
            (groupKeyOf (hasMeaningfulGrouping releases) (repoGroupNameOf repoName))
            ((releases.map toGrouped).map normalizeGrouped)).map
          (fun e => e.2.length)) := by
      apply List.map_congr_left
      intro e _
      simp [mkGroup, jsSort_length]
    rw [hcongr, bucketize_sizes]
    simp
  · intro h
    subst h
    rfl

/-- Claim C1 witness: on the empty batch the group list is empty and
`totalReleases` is zero. -/
theorem grouping_conserves_records_empty_batch :
    (groupReleasesByPackage [] none (fun _ _ => 0)).groups = [] ∧
      (groupReleasesByPackage [] none (fun _ _ => 0)).totalReleases = 0 := by
  have h := grouping_conserves_records [] none (fun _ _ => 0)
  exact ⟨h.2.2 rfl, h.2.1⟩

/-- Claim C5: the six example labels of the specification map to the
stated identities. -/
theorem extract_examples :
    extractPackageInfo "@scope/package-a@1.0.0" =
        some ⟨"@scope/package-a", "1.0.0"⟩ ∧
      extractPackageInfo "package-b@2.0.0" = some ⟨"package-b", "2.0.0"⟩ ∧
      extractPackageInfo "v3.0.0 (package-c)" = some ⟨"package-c", "3.0.0"⟩ ∧
      extractPackageInfo "package-d-4.0.0" = some ⟨"package-d", "4.0.0"⟩ ∧
      extractPackageInfo "package-e v5.0.0" = some ⟨"package-e", "5.0.0"⟩ ∧
      extractPackageInfo "v6.0.0" = some ⟨"default", "6.0.0"⟩ := by
  refine ⟨?_, ?_, ?_, ?_, ?_, ?_⟩ <;> decide

/-- Claim C9 counterexample: the extractor is not total — the empty
label (a falsy title) yields `null`, not a package identity. -/
theorem extract_empty_label_is_null : extractPackageInfo "" = none := by
  decide

/-- Claim C9 (amended): on every nonempty label `extractPackageInfo`
produces a package identity; the `null` result occurs exactly on the
empty (falsy) label. -/
theorem extract_total_on_nonempty (title : String) (h : title ≠ "") :
    (extractPackageInfo title).isSome := by
  simp [extractPackageInfo, h]

/-- Claim C9 witness: a concrete nonempty label has a result. -/
theorem extract_total_on_nonempty_witness :
    ("x" : String) ≠ "" ∧ (extractPackageInfo "x").isSome :=
  ⟨by decide, extract_total_on_nonempty "x" (by decide)⟩

/-- Claim C4 counterexample: a batch whose single record resolves to the
empty package name — a name that is not the literal `default` — still
has `hasMeaningfulGrouping = false`, because the source counts only
truthy (nonempty) names. -/
theorem hasMeaningful_not_iff_nondefault :
    ¬ ((hasMeaningfulGrouping [blankNameRelease] = true) ↔
        ∃ r ∈ [blankNameRelease], (processRelease r).packageName ≠ "default") := by
  decide

/-- `groupKeyOf`, written as the claim phrases it. -/
theorem groupKeyOf_eq_if (hp : Bool) (rgn : String) (g : GroupedRelease) :
    groupKeyOf hp rgn g =
      if hp = false ∨ g.packageName = "default" then rgn else g.packageName := by
  cases hp <;> by_cases h : g.packageName = "default" <;> simp [groupKeyOf, h]

/-- Keys of all buckets are the group keys of input records. -/
theorem bucket_key_of_mem (key : GroupedRelease → String) (l : List GroupedRelease)
    (k : String) (vs : List GroupedRelease) (h : (k, vs) ∈ bucketize key l) :
    ∃ v ∈ l, key v = k := by
  rcases (mem_bucketize_iff key l k vs).mp h with ⟨_, hany⟩
  rcases List.any_eq_true.mp hany with ⟨v, hv, hk⟩
  exact ⟨v, hv, by simpa using hk⟩

theorem length_le_one_of_const_keys (rgn : String) :
    ∀ (m : List (String × List GroupedRelease)), (m.map Prod.fst).Nodup →
      (∀ e ∈ m, e.1 = rgn) → m.length ≤ 1 := by
  intro m hnd hall
  match m with
  | [] => simp
  | [e] => simp
  | e1 :: e2 :: rest =>
    exfalso
    simp only [List.map_cons, List.nodup_cons, List.mem_cons] at hnd
    apply hnd.1
    have h1 : e1.1 = rgn := hall e1 (by simp)
    have h2 : e2.1 = rgn := hall e2 (by simp)
    simp [h1, h2]

theorem groups_length_eq_buckets (releases : List Release) (repoName : Option String)
    (lc : String → String → Int) :
    (groupReleasesByPackage releases repoName lc).groups.length =
      (bucketize (groupKeyOf (hasMeaningfulGrouping releases) (repoGroupNameOf repoName))
        ((releases.map toGrouped).map normalizeGrouped)).length := by
  simp [groupReleasesByPackage, jsSort_length]

/-- Claim C4 (amended): `hasMeaningfulGrouping` is true iff at least one
record resolves to a meaningful name — nonempty, not `default`, and not
case-insensitively `version`; when it is false every record is in a
single group keyed by the effective display name, and when true each
record resolved (after normalization) to `default` is in the group keyed
by the effective display name while every other record is in the group
keyed by its resolved packageName. -/
theorem grouping_partition (releases : List Release) (repoName : Option String)
    (lc : String → String → Int) :
    (hasMeaningfulGrouping releases = true ↔
        ∃ r ∈ releases, isMeaningfulName (toGrouped r).packageName) ∧
    (∀ r ∈ releases, ∃ g ∈ (groupReleasesByPackage releases repoName lc).groups,
        processRelease r ∈ g.releases ∧
        g.name = (if hasMeaningfulGrouping releases = false ∨
            (processRelease r).packageName = "default"
          then repoGroupNameOf repoName else (processRelease r).packageName)) ∧
    (hasMeaningfulGrouping releases = false →
        (groupReleasesByPackage releases repoName lc).groups.length ≤ 1) := by
  refine ⟨?_, ?_, ?_⟩
  · constructor
    · intro htrue
      have hpos : 0 < ((releases.map toGrouped).filter
          fun g => isMeaningfulName g.packageName).length := by
        simpa [hasMeaningfulGrouping] using htrue
      rcases List.exists_mem_of_length_pos hpos with ⟨x, hx⟩
      rcases List.mem_filter.mp hx with ⟨hx1, hx2⟩
      rcases List.mem_map.mp hx1 with ⟨r, hr, rfl⟩
      exact ⟨r, hr, hx2⟩
    · intro ⟨r, hr, hmr⟩
      have hx : toGrouped r ∈ (releases.map toGrouped).filter
          (fun g => isMeaningfulName g.packageName) :=
        List.mem_filter.mpr ⟨List.mem_map.mpr ⟨r, hr, rfl⟩, hmr⟩
      have hpos : 0 < ((releases.map toGrouped).filter
          fun g => isMeaningfulName g.packageName).length :=
        List.length_pos.mpr (List.ne_nil_of_mem hx)
      simpa [hasMeaningfulGrouping] using hpos
  · intro r hr
    set hp := hasMeaningfulGrouping releases with hhp
    set rgn := repoGroupNameOf repoName with hrgn
    have hmemN : processRelease r ∈ (releases.map toGrouped).map normalizeGrouped :=
      List.mem_map.mpr ⟨toGrouped r, List.mem_map.mpr ⟨r, hr, rfl⟩, rfl⟩
    have hbucket := mem_bucket_of_mem (groupKeyOf hp rgn)
      ((releases.map toGrouped).map normalizeGrouped) (processRelease r) hmemN
    refine ⟨mkGroup (groupKeyOf hp rgn (processRelease r),
        jsSort dateGt (((releases.map toGrouped).map normalizeGrouped).filter
          (fun w => groupKeyOf hp rgn w == groupKeyOf hp rgn (processRelease r)))),
      ?_, ?_, ?_⟩
    · exact (mem_groups_iff releases repoName lc _).mpr ⟨_, _, hbucket, rfl⟩
    · show processRelease r ∈ jsSort dateGt _
      rw [mem_jsSort]
      exact List.mem_filter.mpr ⟨hmemN, by simp⟩
    · show groupKeyOf hp rgn (processRelease r) = _
      exact groupKeyOf_eq_if hp rgn (processRelease r)
  · intro hfalse
    rw [groups_length_eq_buckets]
    apply length_le_one_of_const_keys (repoGroupNameOf repoName)
    · exact bucketize_keys_nodup _ _
    · intro e he
      rcases bucket_key_of_mem _ _ e.1 e.2 he with ⟨v, _, hkey⟩
      rw [← hkey, hfalse]
      simp [groupKeyOf]

/-- Claim C4 witness: a concrete two-record batch with one meaningful
name; its default-resolving record lands in the aggregate group. -/
theorem grouping_partition_witness :
    (hasMeaningfulGrouping [jan1Release, defaultOnlyRelease] = true ↔
        ∃ r ∈ [jan1Release, defaultOnlyRelease],
          isMeaningfulName (toGrouped r).packageName) ∧
    ∃ g ∈ (groupReleasesByPackage [jan1Release, defaultOnlyRelease] (some "acme")
        (fun _ _ => 0)).groups,
      processRelease defaultOnlyRelease ∈ g.releases ∧
      g.name = (if hasMeaningfulGrouping [jan1Release, defaultOnlyRelease] = false ∨
          (processRelease defaultOnlyRelease).packageName = "default"
        then repoGroupNameOf (some "acme")
        else (processRelease defaultOnlyRelease).packageName) := by
  refine ⟨(grouping_partition [jan1Release, defaultOnlyRelease] (some "acme")
    (fun _ _ => 0)).1, ?_⟩
  exact (grouping_partition [jan1Release, defaultOnlyRelease] (some "acme")
    (fun _ _ => 0)).2.1 defaultOnlyRelease (by decide)

/-- Claim C10: an absent, empty or whitespace-only display name makes
the aggregate group name the literal string `repository`: the effective
display name is `repository`, and every group holding a
default-resolved record — as well as every group at all when the batch
has no meaningful grouping — bears that name. -/
theorem blank_repo_name_yields_repository (releases : List Release)
    (repoName : Option String) (lc : String → String → Int)
    (h : repoName = none ∨ ∃ s, repoName = some s ∧ jsTrim s = "") :
    repoGroupNameOf repoName = "repository" ∧
    ∀ g ∈ (groupReleasesByPackage releases repoName lc).groups,
      (hasMeaningfulGrouping releases = false ∨
          ∃ r ∈ g.releases, r.packageName = "default") →
      g.name = "repository" := by
  have hrgn : repoGroupNameOf repoName = "repository" := by
    rcases h with h | ⟨s, rfl, htrim⟩
    · rw [h]; rfl
    · simp [repoGroupNameOf, htrim]
  refine ⟨hrgn, ?_⟩
  intro g hg hcase
  rcases (mem_groups_iff releases repoName lc g).mp hg with ⟨k, vs, hmem, rfl⟩
  show k = "repository"
  rcases hcase with hfalse | ⟨r, hrmem, hrdef⟩
  · rcases bucket_key_of_mem _ _ k vs hmem with ⟨v, _, hkey⟩
    rw [← hkey, hfalse]
    simpa using hrgn
  · have hrvs : r ∈ vs := by
      have : r ∈ jsSort dateGt vs := hrmem
      exact mem_jsSort.mp this
    rcases (mem_bucketize_iff _ _ k vs).mp hmem with ⟨hvs, _⟩
    rw [hvs] at hrvs
    rcases List.mem_filter.mp hrvs with ⟨_, hkeyr⟩
    have : groupKeyOf (hasMeaningfulGrouping releases) (repoGroupNameOf repoName) r = k := by
      simpa using hkeyr
    rw [← this]
    simp [groupKeyOf, hrdef, hrgn]

/-- Claim C10 witness: the whitespace-only display name `"  "` satisfies
the hypothesis and produces the aggregate name `repository`. -/
theorem blank_repo_name_witness :
    ((some "  " : Option String) = none ∨ ∃ s, (some "  " : Option String) = some s ∧
        jsTrim s = "") ∧
      repoGroupNameOf (some "  ") = "repository" := by
  have hh : (some "  " : Option String) = none ∨ ∃ s, (some "  " : Option String) = some s ∧
      jsTrim s = "" := Or.inr ⟨"  ", rfl, by decide⟩
  exact ⟨hh, (blank_repo_name_yields_repository [defaultOnlyRelease] (some "  ")
    (fun _ _ => 0) hh).1⟩

/-- Claim C6: in every group of the result (for a batch whose sort keys
are well-formed timestamps — `Array.prototype.sort` is unspecified
otherwise), the releases are in descending timestamp order, releases
with equal timestamps keep their input (insertion) order — their
filtered subsequence is a sublist of the processed input —
`latestRelease` is the first element and `releaseCount` the length. -/
theorem groups_sorted_desc (releases : List Release) (repoName : Option String)
    (lc : String → String → Int)
    (h : ∀ r ∈ releases, (jsDateMs (jsOr r.published_at r.created_at)).isSome) :
    ∀ g ∈ (groupReleasesByPackage releases repoName lc).groups,
      g.releases.Pairwise (fun a b => timeOf b ≤ timeOf a) ∧
      g.latestRelease = g.releases.head? ∧
      g.releaseCount = g.releases.length ∧
      ∀ t, List.Sublist (g.releases.filter fun r => timeOf r == t)
        ((releases.map toGrouped).map normalizeGrouped) := by
  intro g hg
  rcases (mem_groups_iff releases repoName lc g).mp hg with ⟨k, vs, hmem, rfl⟩
  refine ⟨jsSort_dateGt_sorted vs, rfl, rfl, ?_⟩
  intro t
  show List.Sublist ((jsSort dateGt vs).filter fun r => timeOf r == t) _
  rw [jsSort_dateGt_filter]
  rcases (mem_bucketize_iff _ _ k vs).mp hmem with ⟨hvs, _⟩
  rw [hvs, List.filter_filter]
  exact List.filter_sublist _

/-- Claim C6 witness: two releases of one package published on
2025-01-01 and 2025-01-02 form a single group listing the 2025-01-02
record first, and the sort invariants hold there. -/
theorem groups_sorted_desc_witness :
    (∀ r ∈ [jan1Release, jan2Release],
        (jsDateMs (jsOr r.published_at r.created_at)).isSome) ∧
    ((groupReleasesByPackage [jan1Release, jan2Release] (some "acme")
        (fun _ _ => 0)).groups.map fun g => g.releases.map fun r => r.sortKey) =
      [["2025-01-02T00:00:00Z", "2025-01-01T00:00:00Z"]] ∧
    ∀ g ∈ (groupReleasesByPackage [jan1Release, jan2Release] (some "acme")
        (fun _ _ => 0)).groups,
      g.releases.Pairwise (fun a b => timeOf b ≤ timeOf a) ∧
      g.latestRelease = g.releases.head? ∧
      g.releaseCount = g.releases.length ∧
      ∀ t, List.Sublist (g.releases.filter fun r => timeOf r == t)
        (([jan1Release, jan2Release].map toGrouped).map normalizeGrouped) := by
  refine ⟨by decide, by decide, ?_⟩
  exact groups_sorted_desc [jan1Release, jan2Release] (some "acme") (fun _ _ => 0)
    (by decide)

/-! ## Retry lemmas -/

/-- On a stream that always fails, every branch of the retry loop
consumes one retry and recurses, so the loop performs `retries + 1`
invocations and settles on the outcome of the last one. -/
theorem retryGo_always_fails (op : Nat → Except FetchError α)
    (env : Nat → String → Option Int) (hfail : ∀ i, ∃ e, op i = Except.error e) :
    ∀ (retries idx delay : Nat),
      retryGo op env idx retries delay = (op (idx + retries), retries + 1) := by
  intro retries
  induction retries with
  | zero =>
    intro idx delay
    rcases hfail idx with ⟨e, he⟩
    simp [retryGo, he]
  | succ k ih =>
    intro idx delay
    rcases hfail idx with ⟨e, he⟩
    have harith : idx + 1 + k = idx + (k + 1) := by omega
    simp only [retryGo, he]
    cases hrl : rlWaitOf env idx e with
    | none => simp [ih (idx + 1) (delay * 2), harith]
    | some w =>
      by_cases hw : 0 < w ∧ w < 900000
      · simp [hw, ih (idx + 1) delay, harith]
      · simp [hw, ih (idx + 1) (delay * 2), harith]

/-- Claim C2: the code contradicts the claim (and the repository's own
`should not retry on 404 errors` test): an operation that always fails
with the not-found error is invoked four times by
`retryWithBackoff(fn, 3, 1000)` — this revision has no not-found
short-circuit — instead of exactly once. -/
theorem retry_notFound_is_retried :
    retryWithBackoff (α := Nat)
        (fun _ => Except.error (FetchError.notFound "octo" "hello"))
        (fun _ _ => none) 3 1000 =
      (Except.error (FetchError.notFound "octo" "hello"), 4) := by
  rfl

/-- Claim C3 counterexample: with `retries = 3`, an always-failing
operation is invoked four times, not three. -/
theorem retry_exhaustion_not_three :
    (retryWithBackoff (α := Nat)
        (fun i => Except.error (FetchError.remoteError (500 + i) "boom"))
        (fun _ _ => none) 3 1000).2 ≠ 3 := by
  decide

/-- Claim C3 (amended): for an operation failing with `RemoteError` on
every invocation, `retryWithBackoff` with `retries = 3` performs exactly
`3 + 1 = 4` invocations (the initial attempt plus three retries, as the
repository's own test phrases it: `maxRetries + 1 times`) and settles on
the outcome of the last invocation, unchanged. -/
theorem retry_exhaustion (op : Nat → Except FetchError α)
    (env : Nat → String → Option Int) (delay : Nat)
    (h : ∀ i, ∃ st stt, op i = Except.error (FetchError.remoteError st stt)) :
    retryWithBackoff op env 3 delay = (op 3, 4) := by
  have hfail : ∀ i, ∃ e, op i = Except.error e := by
    intro i
    rcases h i with ⟨st, stt, he⟩
    exact ⟨_, he⟩
  simpa using retryGo_always_fails op env hfail 3 0 delay

/-- Claim C3 witness: a concrete always-`RemoteError` operation settles
on the error of invocation 3 after 4 invocations. -/
theorem retry_exhaustion_witness :
    (∀ i : Nat, ∃ st stt,
        (Except.error (FetchError.remoteError (500 + i) "boom") : Except FetchError Nat) =
          Except.error (FetchError.remoteError st stt)) ∧
    retryWithBackoff (α := Nat)
        (fun i => Except.error (FetchError.remoteError (500 + i) "boom"))
        (fun _ _ => none) 3 1000 =
      (Except.error (FetchError.remoteError 503 "boom"), 4) := by
  refine ⟨fun i => ⟨500 + i, "boom", rfl⟩, ?_⟩
  exact (retry_exhaustion (α := Nat)
    (fun i => Except.error (FetchError.remoteError (500 + i) "boom"))
    (fun _ _ => none) 1000 (fun i => ⟨500 + i, "boom", rfl⟩)).trans rfl

/-- Claim C7: error classification of `fetchReleasesPage`. The call
fails with the not-found error — carrying the collection identity, whose
message names owner and repo — exactly when the status is 404; it fails
with the rate-limit error carrying the decoded reset time exactly when
the status is 403 and the `x-ratelimit-remaining` header reads `0`; and
it fails with the generic remote error exactly on every other non-ok
response. -/
theorem fetchPage_error_classification (localeTime : Option Int → String)
    (owner repo : String) (resp : HttpResponse) :
    (fetchReleasesPage localeTime owner repo resp =
        Except.error (FetchError.notFound owner repo) ↔ resp.status = 404) ∧
    ((resp.status = 403 ∧ resp.headers "x-ratelimit-remaining" = some "0") ↔
      fetchReleasesPage localeTime owner repo resp =
        Except.error (FetchError.rateLimited
          ((jsParseInt (headerOr (resp.headers "x-ratelimit-reset") "0")).map (· * 1000))
          (localeTime
            ((jsParseInt (headerOr (resp.headers "x-ratelimit-reset") "0")).map (· * 1000))))) ∧
    ((respOk resp = false ∧ resp.status ≠ 404 ∧
        ¬(resp.status = 403 ∧ resp.headers "x-ratelimit-remaining" = some "0")) ↔
      fetchReleasesPage localeTime owner repo resp =
        Except.error (FetchError.remoteError resp.status resp.statusText)) ∧
    (FetchError.notFound owner repo).message =
      "Repository " ++ owner ++ "/" ++ repo ++ " not found" := by
  have hok404 : respOk resp = true → resp.status ≠ 404 := by
    intro hok hc
    simp [respOk, hc] at hok
  have hok403 : respOk resp = true → resp.status ≠ 403 := by
    intro hok hc
    simp [respOk, hc] at hok
  refine ⟨?_, ?_, ?_, rfl⟩
  · constructor
    · intro hres
      by_cases hok : respOk resp
      · simp [fetchReleasesPage, hok] at hres
      · by_cases h403 : resp.status = 403 ∧ resp.headers "x-ratelimit-remaining" = some "0"
        · simp [fetchReleasesPage, hok, h403] at hres
        · by_cases h404 : resp.status = 404
          · exact h404
          · simp [fetchReleasesPage, hok, h403, h404] at hres
    · intro h404
      have hok : respOk resp = false := by
        simp [respOk, h404]
      have h403 : ¬(resp.status = 403 ∧ resp.headers "x-ratelimit-remaining" = some "0") := by
        rintro ⟨hc, _⟩
        rw [h404] at hc
        exact absurd hc (by decide)
      simp [fetchReleasesPage, hok, h403, h404]
  · constructor
    · intro h403
      have hok : respOk resp = false := by
        simp [respOk, h403.1]
      simp [fetchReleasesPage, hok, h403]
    · intro hres
      by_cases hok : respOk resp
      · simp [fetchReleasesPage, hok] at hres
      · by_cases h403 : resp.status = 403 ∧ resp.headers "x-ratelimit-remaining" = some "0"
        · exact h403
        · by_cases h404 : resp.status = 404
          · simp [fetchReleasesPage, hok, h403, h404] at hres
          · simp [fetchReleasesPage, hok, h403, h404] at hres
  · constructor
    · rintro ⟨hok, h404, h403⟩
      simp [fetchReleasesPage, hok, h403, h404]
    · intro hres
      by_cases hok : respOk resp
      · simp [fetchReleasesPage, hok] at hres
      · by_cases h403 : resp.status = 403 ∧ resp.headers "x-ratelimit-remaining" = some "0"
        · simp [fetchReleasesPage, hok, h403] at hres
        · by_cases h404 : resp.status = 404
          · simp [fetchReleasesPage, hok, h403, h404] at hres
          · exact ⟨by simpa using hok, h404, h403⟩

/-! ## fetchAll lemmas -/

theorem collectPages_ok (f : Nat → ApiResponse) :
    ∀ l : List Nat,
      collectPages (fun i => Except.ok (f i)) l = Except.ok (l.map f) := by
  intro l
  induction l with
  | nil => rfl
  | cons a l ih => simp [collectPages, ih]

theorem foldl_append_releases :
    ∀ (ps : List ApiResponse) (acc : List Release),
      ps.foldl (fun acc p => acc ++ p.releases) acc =
        acc ++ (ps.map fun p => p.releases).flatten := by
  intro ps
  induction ps with
  | nil => intro acc; simp
  | cons p ps ih =>
    intro acc
    simp [ih, List.append_assoc]

/-- Claim C8 counterexample: a two-page collection whose pages carry
different rate-limit snapshots. Page 2 is fetched after page 1, yet the
merged metadata keeps page 1's snapshot, not the most recent one. -/
theorem fetchAll_keeps_first_snapshot :
    (fetchAllReleases cexPages).map (fun r => r.meta.rateLimit) =
        Except.ok cexPage1.meta.rateLimit ∧
      cexPage1.meta.rateLimit ≠ cexPage2.meta.rateLimit := by
  exact ⟨rfl, by decide⟩

/-- Claim C8 (amended): when every page fetch succeeds,
`fetchAllReleases` returns the concatenation of page 1's records with
those of pages `2..lastPage` in page order, and its metadata is page 1's
— in particular page 1's rate-limit snapshot, not the most recent one —
with `totalCount` set to the concatenated record count. -/
theorem fetchAll_concatenates_pages (f : Nat → ApiResponse) :
    fetchAllReleases (fun i => Except.ok (f i)) =
      Except.ok
        { releases := (f 1).releases ++
            ((List.range' 2 ((f 1).meta.lastPage - 1)).map fun i => (f i).releases).flatten
          meta := { (f 1).meta with
            totalCount := some ((f 1).releases ++
              ((List.range' 2 ((f 1).meta.lastPage - 1)).map
                fun i => (f i).releases).flatten).length } } := by
  simp only [fetchAllReleases, collectPages_ok f, foldl_append_releases, List.map_map]
  rfl

end RepoScoop
